import Mathlib

/-
Shallow embedding of `src/hash.c`: a chained hash table mapping C strings
(modelled as lists of byte values, the bytes before the NUL terminator)
to `void*` values (modelled as `Nat`, with `0` playing the role of the
`NULL` absent sentinel).  Machine arithmetic: `unsigned long` is 64 bits,
`unsigned int` is 32 bits, `char` is signed (x86-64 Linux ABI), so a byte
`b ≥ 128` contributes `b - 256` to the DJB accumulator; the load-factor
check divides in IEEE single precision, modelled by rounding `num_elems`
to a 24-bit significand (`floatRound`) before the exact comparison.
-/

/-- `struct association`: one key/value node of a bucket chain.  The C
`next` pointer is represented by the position in a `List`. -/
structure Association where
  key : List Nat
  value : Nat
deriving DecidableEq

/-- `struct hash`: the bucket array (`table`), its length (`capacity`)
and the live-node count (`num_elems`). -/
structure Hash where
  table : List (List Association)
  capacity : Nat
  num_elems : Nat
deriving DecidableEq

/-- A C `char` read into an `int`: bytes ≥ 128 sign-extend to negatives. -/
def charToInt (b : Nat) : Int :=
  if b < 128 then (b : Int) else (b : Int) - 256

/-- One step of the DJB loop: `hash = hash * 33 + c` on `unsigned long`
(64-bit wraparound). -/
def djbStep (h : Nat) (b : Nat) : Nat :=
  (((h : Int) * 33 + charToInt b).emod (2 ^ 64)).toNat

/-- `_djb_hash`: seed 5381, fold the bytes, then truncate the
`unsigned long` accumulator to the `unsigned int` return type. -/
def _djb_hash (key : List Nat) : Nat :=
  (key.foldl djbStep 5381) % 2 ^ 32

/-- First value stored against `key` in a chain, `0` (NULL) if absent:
the `while` loop of `hash_get` restricted to one chain. -/
def chainGet (k : List Nat) : List Association → Nat
  | [] => 0
  | a :: rest => if a.key = k then a.value else chainGet k rest

/-- Whether the scan of `hash_insert` finds `key` in the chain
(`cur != NULL` after the scan loop). -/
def chainMem (k : List Nat) : List Association → Bool
  | [] => false
  | a :: rest => if a.key = k then true else chainMem k rest

/-- `cur->value = value` on the first node whose key matches. -/
def chainAssign (k : List Nat) (v : Nat) : List Association → List Association
  | [] => []
  | a :: rest => if a.key = k then { a with value := v } :: rest
                 else a :: chainAssign k v rest

/-- Unlink the first node whose key matches (the `prev`/`cur` pointer
surgery of the removal branch). -/
def chainRemove (k : List Nat) : List Association → List Association
  | [] => []
  | a :: rest => if a.key = k then rest else a :: chainRemove k rest

/-- `_hash_table_init`: a zeroed bucket array of the given capacity. -/
def _hash_table_init (capacity : Nat) : Hash :=
  { table := List.replicate capacity [], capacity := capacity, num_elems := 0 }

/-- `hash_create`: initial capacity 16, empty. -/
def hash_create : Hash :=
  _hash_table_init 16

/-- `hash_load_factor`: `num_elems / capacity`.  The C function returns
a `float`; the embedding uses the exact rational ratio to state
load-factor bounds — the rounding the C code actually performs in the
resize check is modelled where it matters, in `loadOver`. -/
def hash_load_factor (h : Hash) : ℚ :=
  (h.num_elems : ℚ) / (h.capacity : ℚ)

/-- A `Nat` converted to IEEE single precision and read back: values up
to `2^24` are exact; above that the value is rounded to a 24-bit
significand, to nearest, ties to the even significand — the semantics of
the C cast `(float)hash->num_elems`.  (`unsigned int` inputs stay far
below the overflow threshold `2^128`.) -/
def floatRound (n : Nat) : Nat :=
  if n ≤ 2 ^ 24 then n
  else if 2 ^ (Nat.log 2 n - 23) < 2 * (n % 2 ^ (Nat.log 2 n - 23))
      ∨ (2 * (n % 2 ^ (Nat.log 2 n - 23)) = 2 ^ (Nat.log 2 n - 23)
          ∧ (n / 2 ^ (Nat.log 2 n - 23)) % 2 = 1) then
    (n / 2 ^ (Nat.log 2 n - 23) + 1) * 2 ^ (Nat.log 2 n - 23)
  else
    (n / 2 ^ (Nat.log 2 n - 23)) * 2 ^ (Nat.log 2 n - 23)

/-- The resize guard `hash_load_factor(hash) > LOAD_FACTOR_THR` with
`LOAD_FACTOR_THR = 5`, i.e. `num_elems / (float)capacity > 5` in single
precision.  `(float)num_elems` rounds (`floatRound`); `capacity` is a
power of two on every table the program builds (16, doubled on resize),
so `(float)capacity` is exact, the division only shifts the exponent and
is exact, and `5 * capacity` (3 significant bits) is representable:
the comparison is exactly `floatRound num_elems > 5 * capacity`.
(Tables whose capacity is not a power of two never arise; for them the
division would round once more, which this embedding does not model.) -/
def loadOver (h : Hash) : Bool :=
  5 * h.capacity < floatRound h.num_elems

/-- `hashval % capacity` and the chain stored there: the bucket a key
selects, shared by `hash_insert` and `hash_get`. -/
def bucket (h : Hash) (key : List Nat) : List Association :=
  h.table.getD (_djb_hash key % h.capacity) []

/-- The body of `hash_insert` after the resize check: compute the bucket
index, scan the chain, then overwrite / unlink / prepend / no-op exactly
as the four branches of the C function do. -/
def hash_insert_core (h : Hash) (key : List Nat) (value : Nat) : Hash :=
  if chainMem key (bucket h key) then
    if value ≠ 0 then
      { h with table := h.table.set (_djb_hash key % h.capacity) (chainAssign key value (bucket h key)) }
    else
      { h with table := h.table.set (_djb_hash key % h.capacity) (chainRemove key (bucket h key)),
               num_elems := h.num_elems - 1 }
  else if value ≠ 0 then
    { h with table := h.table.set (_djb_hash key % h.capacity) ({ key := key, value := value } :: bucket h key),
             num_elems := h.num_elems + 1 }
  else h

/-- `_hash_resize`: re-initialize at double capacity, then walk every old
bucket head-first and re-insert each node.  The C code re-inserts through
`hash_insert`, whose load-factor check is never taken during a resize
(the code's own comment asserts this; theorem `C10_resize_never_reenters`
proves it for reachable tables), so the embedding re-inserts through the
check-free body `hash_insert_core`, which breaks the mutual recursion. -/
def _hash_resize (h : Hash) : Hash :=
  let fresh := _hash_table_init (h.capacity * 2)
  h.table.foldl
    (fun acc chain =>
      chain.foldl (fun acc a => hash_insert_core acc a.key a.value) acc)
    fresh

/-- `hash_insert`: resize first when the load factor is over threshold
(the check runs before `value` is inspected), then run the insert body. -/
def hash_insert (h : Hash) (key : List Nat) (value : Nat) : Hash :=
  hash_insert_core (if loadOver h then _hash_resize h else h) key value

/-- `hash_get`: bucket index from the key, scan that chain, value of the
first match or `NULL`.  It only reads the table, which the embedding
reflects by returning just the value. -/
def hash_get (h : Hash) (key : List Nat) : Nat :=
  chainGet key (bucket h key)

/-- All association nodes of the table, in bucket order then chain
order. -/
def assocs (h : Hash) : List Association :=
  h.table.flatten

/-- Fold a list of key/value pairs through `hash_insert`. -/
def insertAll (l : List (List Nat × Nat)) (h : Hash) : Hash :=
  l.foldl (fun t p => hash_insert t p.1 p.2) h

/-- The re-insertion loop of `_hash_resize`, over an explicit node list:
fold the check-free insert body over the nodes. -/
def reinsert (l : List Association) (acc : Hash) : Hash :=
  l.foldl (fun acc a => hash_insert_core acc a.key a.value) acc

/-- The re-insertion loop as the C code literally writes it, through the
full `hash_insert` (with its load-factor check). -/
def reinsertFull (l : List Association) (acc : Hash) : Hash :=
  l.foldl (fun acc a => hash_insert acc a.key a.value) acc

/-- The load bound every reachable table obeys: five per bucket, plus
float-rounding slack (`capacity / 2^22` elements — zero below capacity
`2^22`, since counts are then exact in single precision), plus the one
element the pre-insert check lets through past the threshold. -/
def LoadOK (h : Hash) : Prop :=
  h.num_elems ≤ 5 * h.capacity + h.capacity / 2 ^ 22 + 1

/-- Concrete test keys: three ASCII letters encoding `i < 1000`. -/
def keyOf (i : Nat) : List Nat :=
  [65 + i / 100, 65 + i / 10 % 10, 65 + i % 10]

/-- The first `n` concrete key/value pairs `(keyOf i, i + 1)`. -/
def pairsUpTo (n : Nat) : List (List Nat × Nat) :=
  (List.range n).map (fun i => (keyOf i, i + 1))

/-- 80 distinct keys inserted into a fresh table: load factor exactly 5,
capacity still 16. -/
def t80 : Hash :=
  insertAll (pairsUpTo 80) hash_create

/-- One more insert on `t80`: the guard saw load factor 5 (not over), so
no resize happened and 81 elements share 16 buckets. -/
def t81 : Hash :=
  hash_insert t80 (keyOf 80) 81

/-- Table states reachable from `hash_create` by inserts/updates/removals
(`hash_get` does not change the state, so it contributes no step). -/
inductive Reachable : Hash → Prop
  | create : Reachable hash_create
  | insert (h : Hash) (key : List Nat) (value : Nat) :
      Reachable h → Reachable (hash_insert h key value)

/-! ### Chain-level lemmas -/

theorem chainMem_iff_exists (k : List Nat) (c : List Association) :
    chainMem k c = true ↔ ∃ a ∈ c, a.key = k := by
  induction c with
  | nil => simp [chainMem]
  | cons a rest ih =>
    by_cases hk : a.key = k <;> simp [chainMem, hk, ih]

theorem chainGet_eq_zero_of_not_mem (k : List Nat) (c : List Association)
    (h : chainMem k c = false) : chainGet k c = 0 := by
  induction c with
  | nil => simp [chainGet]
  | cons a rest ih =>
    by_cases hk : a.key = k
    · simp [chainMem, hk] at h
    · simp [chainMem, hk] at h
      simp [chainGet, hk, ih h]

theorem chainGet_ne_zero_iff (k : List Nat) (c : List Association)
    (hv : ∀ a ∈ c, a.value ≠ 0) : chainGet k c ≠ 0 ↔ chainMem k c = true := by
  induction c with
  | nil => simp [chainGet, chainMem]
  | cons a rest ih =>
    by_cases hk : a.key = k
    · simp only [chainGet, chainMem, hk, if_pos rfl]
      exact ⟨fun _ => rfl, fun _ => hv a (List.mem_cons_self a rest)⟩
    · simp only [chainGet, chainMem, hk, if_neg hk, ite_false]
      exact ih (fun a ha => hv a (List.mem_cons_of_mem _ ha))

theorem chainGet_assign_self (k : List Nat) (v : Nat) (c : List Association)
    (h : chainMem k c = true) : chainGet k (chainAssign k v c) = v := by
  induction c with
  | nil => simp [chainMem] at h
  | cons a rest ih =>
    by_cases hk : a.key = k
    · simp [chainAssign, chainGet, hk]
    · simp [chainMem, hk] at h
      simp [chainAssign, chainGet, hk, ih h]

theorem chainGet_assign_ne (k k' : List Nat) (v : Nat) (c : List Association)
    (h : k' ≠ k) : chainGet k' (chainAssign k v c) = chainGet k' c := by
  induction c with
  | nil => simp [chainAssign]
  | cons a rest ih =>
    by_cases hk : a.key = k
    · simp [chainAssign, chainGet, hk, (show k ≠ k' from fun e => h e.symm)]
    · by_cases hk' : a.key = k' <;>
        simp [chainAssign, chainGet, hk, hk', h, ih]

theorem map_key_chainAssign (k : List Nat) (v : Nat) (c : List Association) :
    (chainAssign k v c).map Association.key = c.map Association.key := by
  induction c with
  | nil => rfl
  | cons a rest ih =>
    by_cases hk : a.key = k <;> simp [chainAssign, hk, ih]

theorem length_chainAssign (k : List Nat) (v : Nat) (c : List Association) :
    (chainAssign k v c).length = c.length := by
  induction c with
  | nil => rfl
  | cons a rest ih =>
    by_cases hk : a.key = k <;> simp [chainAssign, hk, ih]

theorem mem_chainAssign (k : List Nat) (v : Nat) (c : List Association)
    (a : Association) (ha : a ∈ chainAssign k v c) : a.value = v ∨ a ∈ c := by
  induction c with
  | nil => simp [chainAssign] at ha
  | cons b rest ih =>
    by_cases hk : b.key = k
    · simp [chainAssign, hk, List.mem_cons] at ha
      rcases ha with heq | hmem
      · exact Or.inl (by rw [heq])
      · exact Or.inr (List.mem_cons_of_mem _ hmem)
    · simp only [chainAssign, if_neg hk, List.mem_cons] at ha
      rcases ha with rfl | hmem
      · exact Or.inr (List.mem_cons_self _ _)
      · rcases ih hmem with h' | h'
        · exact Or.inl h'
        · exact Or.inr (List.mem_cons_of_mem _ h')

theorem chainRemove_sublist (k : List Nat) (c : List Association) :
    (chainRemove k c).Sublist c := by
  induction c with
  | nil => simp [chainRemove]
  | cons a rest ih =>
    by_cases hk : a.key = k
    · simp only [chainRemove, hk, if_pos rfl]
      exact List.sublist_cons_self a rest
    · simp only [chainRemove, if_neg hk]
      exact List.Sublist.cons₂ a ih

theorem length_chainRemove (k : List Nat) (c : List Association)
    (h : chainMem k c = true) : (chainRemove k c).length + 1 = c.length := by
  induction c with
  | nil => simp [chainMem] at h
  | cons a rest ih =>
    by_cases hk : a.key = k
    · simp [chainRemove, hk]
    · simp [chainMem, hk] at h
      simp [chainRemove, hk, ih h]

theorem chainMem_chainRemove_self (k : List Nat) (c : List Association)
    (hnd : (c.map Association.key).Nodup) :
    chainMem k (chainRemove k c) = false := by
  induction c with
  | nil => simp [chainRemove, chainMem]
  | cons a rest ih =>
    simp only [List.map_cons, List.nodup_cons] at hnd
    by_cases hk : a.key = k
    · have hrw : chainRemove k (a :: rest) = rest := by simp [chainRemove, hk]
      rw [hrw, ← Bool.not_eq_true]
      intro hmem
      rcases (chainMem_iff_exists k rest).1 hmem with ⟨b, hb, hbk⟩
      exact hnd.1 (by rw [hk, ← hbk]; exact List.mem_map_of_mem Association.key hb)
    · simp [chainRemove, chainMem, hk, ih hnd.2]

theorem chainGet_remove_ne (k k' : List Nat) (c : List Association)
    (h : k' ≠ k) : chainGet k' (chainRemove k c) = chainGet k' c := by
  induction c with
  | nil => simp [chainRemove]
  | cons a rest ih =>
    by_cases hk : a.key = k
    · simp [chainRemove, chainGet, hk, (show k ≠ k' from fun e => h e.symm)]
    · by_cases hk' : a.key = k' <;>
        simp [chainRemove, chainGet, hk, hk', h, ih]

theorem chainGet_append (k : List Nat) (c d : List Association) :
    chainGet k (c ++ d) = if chainMem k c then chainGet k c else chainGet k d := by
  induction c with
  | nil => simp [chainGet, chainMem]
  | cons a rest ih =>
    by_cases hk : a.key = k <;> simp [chainGet, chainMem, hk, ih]

theorem chainMem_eq_false_iff (k : List Nat) (c : List Association) :
    chainMem k c = false ↔ ∀ a ∈ c, a.key ≠ k := by
  rw [← Bool.not_eq_true, chainMem_iff_exists]
  simp

/-! ### Bucket-array helper lemmas: `getD`, `set`, `flatten` -/

theorem getD_set_self {α : Type} (L : List (List α)) (i : Nat) (x : List α)
    (hi : i < L.length) : (L.set i x).getD i [] = x := by
  induction L generalizing i with
  | nil => simp at hi
  | cons c rest ih =>
    cases i with
    | zero => simp
    | succ j => simpa using ih j (by simpa using hi)

theorem getD_set_ne {α : Type} (L : List (List α)) (i j : Nat) (x : List α)
    (hne : j ≠ i) : (L.set i x).getD j [] = L.getD j [] := by
  induction L generalizing i j with
  | nil => simp
  | cons c rest ih =>
    cases i with
    | zero =>
      cases j with
      | zero => exact absurd rfl hne
      | succ j' => simp
    | succ i' =>
      cases j with
      | zero => simp
      | succ j' => simpa using ih i' j' (fun e => hne (by rw [e]))

theorem getD_mem_of_lt {α : Type} (L : List (List α)) (i : Nat)
    (hi : i < L.length) : L.getD i [] ∈ L := by
  induction L generalizing i with
  | nil => simp at hi
  | cons c rest ih =>
    cases i with
    | zero => simp
    | succ j =>
      simp only [List.getD_cons_succ]
      exact List.mem_cons_of_mem _ (ih j (by simpa using hi))

theorem length_flatten_set {α : Type} (L : List (List α)) (i : Nat) (x : List α)
    (hi : i < L.length) :
    ((L.set i x).flatten).length + (L.getD i []).length
      = L.flatten.length + x.length := by
  induction L generalizing i with
  | nil => simp at hi
  | cons c rest ih =>
    cases i with
    | zero => simp [Nat.add_assoc, Nat.add_comm, Nat.add_left_comm]
    | succ j =>
      have := ih j (by simpa using hi)
      simp only [List.set_cons_succ, List.flatten_cons, List.length_append,
        List.getD_cons_succ]
      omega

theorem mem_flatten_set {α : Type} (L : List (List α)) (i : Nat) (x : List α)
    (a : α) (ha : a ∈ (L.set i x).flatten) : a ∈ x ∨ a ∈ L.flatten := by
  induction L generalizing i with
  | nil => simp at ha
  | cons c rest ih =>
    cases i with
    | zero =>
      simp only [List.set_cons_zero, List.flatten_cons, List.mem_append] at ha
      rcases ha with h | h
      · exact Or.inl h
      · exact Or.inr (by simp [h])
    | succ j =>
      simp only [List.set_cons_succ, List.flatten_cons, List.mem_append] at ha
      rcases ha with h | h
      · exact Or.inr (by simp [h])
      · rcases ih j h with h' | h'
        · exact Or.inl h'
        · exact Or.inr (by simp [h'])

theorem flatten_replicate_nil {α : Type} (n : Nat) :
    (List.replicate n ([] : List α)).flatten = [] := by
  induction n with
  | zero => rfl
  | succ m ih => simp [List.replicate_succ, ih]

theorem getD_replicate_nil {α : Type} (n i : Nat) :
    (List.replicate n ([] : List α)).getD i [] = [] := by
  induction n generalizing i with
  | zero => simp
  | succ m ih =>
    cases i with
    | zero => simp [List.replicate_succ]
    | succ j => simp [List.replicate_succ, ih]

/-- When every node whose key is `k` sits in bucket `i`, scanning the
flattened table for `k` is scanning bucket `i`. -/
theorem chainGet_flatten_eq (L : List (List Association)) (k : List Nat) (i : Nat)
    (hi : i < L.length)
    (hp : ∀ j, ∀ a ∈ L.getD j [], a.key = k → j = i) :
    chainGet k L.flatten = chainGet k (L.getD i []) := by
  induction L generalizing i with
  | nil => simp at hi
  | cons c rest ih =>
    rw [List.flatten_cons, chainGet_append]
    cases i with
    | zero =>
      by_cases hm : chainMem k c
      · simp [hm]
      · have hrest : chainMem k rest.flatten = false := by
          rw [chainMem_eq_false_iff]
          intro a ha hk
          rcases List.mem_flatten.1 ha with ⟨d, hd, had⟩
          rcases List.mem_iff_get.1 hd with ⟨⟨j, hj⟩, rfl⟩
          have hgd : rest.getD j [] = rest.get ⟨j, hj⟩ := List.getD_eq_getElem rest [] hj
          exact Nat.succ_ne_zero j (hp (j + 1) a (by rw [List.getD_cons_succ, hgd]; exact had) hk)
        rw [Bool.not_eq_true] at hm
        simp [hm, chainGet_eq_zero_of_not_mem k _ hrest,
          chainGet_eq_zero_of_not_mem k c hm]
    | succ i' =>
      have hc : chainMem k c = false := by
        rw [chainMem_eq_false_iff]
        intro a ha hk
        exact Nat.succ_ne_zero i' ((hp 0 a (by simpa using ha) hk).symm)
      rw [hc]
      simp only [Bool.false_eq_true, if_false, List.getD_cons_succ]
      exact ih i' (by simpa using hi) (fun j a ha hk => by
        have := hp (j + 1) a (by simpa using ha) hk
        omega)

/-- Bucket-placement also localizes counting: nodes satisfying a
predicate that pins them to bucket `i` are counted inside bucket `i`. -/
theorem length_filter_flatten_eq (L : List (List Association))
    (p : Association → Bool) (i : Nat) (hi : i < L.length)
    (hp : ∀ j, ∀ a ∈ L.getD j [], p a = true → j = i) :
    (L.flatten.filter p).length = ((L.getD i []).filter p).length := by
  induction L generalizing i with
  | nil => simp at hi
  | cons c rest ih =>
    rw [List.flatten_cons, List.filter_append]
    cases i with
    | zero =>
      have hrest : (rest.flatten.filter p) = [] := by
        rw [List.filter_eq_nil_iff]
        intro a ha hpa
        rcases List.mem_flatten.1 ha with ⟨d, hd, had⟩
        rcases List.mem_iff_get.1 hd with ⟨⟨j, hj⟩, rfl⟩
        have hgd : rest.getD j [] = rest.get ⟨j, hj⟩ := List.getD_eq_getElem rest [] hj
        exact Nat.succ_ne_zero j (hp (j + 1) a (by rw [List.getD_cons_succ, hgd]; exact had) hpa)
      simp [hrest]
    | succ i' =>
      have hc : (c.filter p) = [] := by
        rw [List.filter_eq_nil_iff]
        intro a ha hpa
        exact Nat.succ_ne_zero i' ((hp 0 a (by simpa using ha) hpa).symm)
      simp only [hc, List.nil_append, List.getD_cons_succ]
      exact ih i' (by simpa using hi) (fun j a ha hpa => by
        have := hp (j + 1) a (by simpa using ha) hpa
        omega)

/-! ### The structural invariant of a hash table -/

/-- Structural well-formedness: the bucket array has `capacity` slots,
`num_elems` counts the nodes, stored values are never the `NULL`
sentinel, every node sits in the bucket its key hashes to, and no chain
holds two nodes with the same key. -/
structure WF (h : Hash) : Prop where
  len : h.table.length = h.capacity
  pos : 0 < h.capacity
  count : h.num_elems = (assocs h).length
  vals : ∀ a ∈ assocs h, a.value ≠ 0
  placed : ∀ i, ∀ a ∈ h.table.getD i [], _djb_hash a.key % h.capacity = i
  nodup : ∀ c ∈ h.table, (c.map Association.key).Nodup

theorem mem_assocs_of_mem_bucket (h : Hash) (i : Nat)
    (a : Association) (ha : a ∈ h.table.getD i []) : a ∈ assocs h := by
  by_cases hi : i < h.table.length
  · exact List.mem_flatten.2 ⟨h.table.getD i [], getD_mem_of_lt h.table i hi, ha⟩
  · rw [List.getD_eq_default h.table [] (Nat.le_of_not_lt hi)] at ha
    simp at ha

theorem mem_assocs_of_mem_bucket_key (h : Hash) (k : List Nat)
    (a : Association) (ha : a ∈ bucket h k) : a ∈ assocs h :=
  mem_assocs_of_mem_bucket h (_djb_hash k % h.capacity) a ha

theorem hash_get_ne_zero_iff (h : Hash) (wf : WF h) (k : List Nat) :
    hash_get h k ≠ 0 ↔ chainMem k (bucket h k) = true :=
  chainGet_ne_zero_iff k _
    (fun a ha => wf.vals a (mem_assocs_of_mem_bucket_key h k a ha))


/-! ### The four branches of the insert body -/

theorem hash_insert_core_assign (h : Hash) (key : List Nat) (value : Nat)
    (hm : chainMem key (bucket h key) = true) (hv : value ≠ 0) :
    hash_insert_core h key value =
      { h with
        table := (h.table.set (_djb_hash key % h.capacity)
            (chainAssign key value (bucket h key))) } := by
  simp [hash_insert_core, hm, hv]

theorem hash_insert_core_remove (h : Hash) (key : List Nat)
    (hm : chainMem key (bucket h key) = true) :
    hash_insert_core h key 0 =
      { h with
        table := (h.table.set (_djb_hash key % h.capacity)
            (chainRemove key (bucket h key))),
        num_elems := h.num_elems - 1 } := by
  simp [hash_insert_core, hm]

theorem hash_insert_core_new (h : Hash) (key : List Nat) (value : Nat)
    (hm : chainMem key (bucket h key) = false) (hv : value ≠ 0) :
    hash_insert_core h key value =
      { h with
        table := (h.table.set (_djb_hash key % h.capacity)
            ({ key := key, value := value } :: bucket h key)),
        num_elems := h.num_elems + 1 } := by
  simp [hash_insert_core, hm, hv]

theorem hash_insert_core_noop (h : Hash) (key : List Nat)
    (hm : chainMem key (bucket h key) = false) :
    hash_insert_core h key 0 = h := by
  simp [hash_insert_core, hm]

theorem capacity_hash_insert_core (h : Hash) (key : List Nat) (value : Nat) :
    (hash_insert_core h key value).capacity = h.capacity := by
  by_cases hm : chainMem key (bucket h key) = true
  · by_cases hv : value = 0
    · rw [hv, hash_insert_core_remove h key hm]
    · rw [hash_insert_core_assign h key value hm hv]
  · rw [Bool.not_eq_true] at hm
    by_cases hv : value = 0
    · rw [hv, hash_insert_core_noop h key hm]
    · rw [hash_insert_core_new h key value hm hv]

theorem table_length_hash_insert_core (h : Hash) (key : List Nat) (value : Nat) :
    (hash_insert_core h key value).table.length = h.table.length := by
  by_cases hm : chainMem key (bucket h key) = true
  · by_cases hv : value = 0
    · rw [hv, hash_insert_core_remove h key hm]; simp
    · rw [hash_insert_core_assign h key value hm hv]; simp
  · rw [Bool.not_eq_true] at hm
    by_cases hv : value = 0
    · rw [hv, hash_insert_core_noop h key hm]
    · rw [hash_insert_core_new h key value hm hv]; simp

theorem num_elems_hash_insert_core_le (h : Hash) (key : List Nat) (value : Nat) :
    (hash_insert_core h key value).num_elems ≤ h.num_elems + 1 := by
  by_cases hm : chainMem key (bucket h key) = true
  · by_cases hv : value = 0
    · rw [hv, hash_insert_core_remove h key hm]; simp; omega
    · rw [hash_insert_core_assign h key value hm hv]; simp
  · rw [Bool.not_eq_true] at hm
    by_cases hv : value = 0
    · rw [hv, hash_insert_core_noop h key hm]; omega
    · rw [hash_insert_core_new h key value hm hv]

/-! ### Lookup after one insert-body step -/

theorem hash_get_hash_insert_core (h : Hash) (wf : WF h) (key k' : List Nat)
    (value : Nat) :
    hash_get (hash_insert_core h key value) k'
      = if k' = key then value else hash_get h k' := by
  have hidx : _djb_hash key % h.capacity < h.table.length := by
    rw [wf.len]; exact Nat.mod_lt _ wf.pos
  have hnd : ((bucket h key).map Association.key).Nodup :=
    wf.nodup _ (getD_mem_of_lt h.table _ hidx)
  by_cases hm : chainMem key (bucket h key) = true
  · by_cases hv : value = 0
    · rw [hv, hash_insert_core_remove h key hm]
      by_cases hk : k' = key
      · subst hk
        simp only [hash_get, bucket, if_pos rfl]
        rw [getD_set_self _ _ _ hidx]
        exact chainGet_eq_zero_of_not_mem _ _ (chainMem_chainRemove_self k' _ hnd)
      · simp only [hash_get, bucket, if_neg hk]
        by_cases hb : _djb_hash k' % h.capacity = _djb_hash key % h.capacity
        · rw [hb, getD_set_self _ _ _ hidx, chainGet_remove_ne key k' _ hk]
        · rw [getD_set_ne _ _ _ _ hb]
    · rw [hash_insert_core_assign h key value hm hv]
      by_cases hk : k' = key
      · subst hk
        simp only [hash_get, bucket, if_pos rfl]
        rw [getD_set_self _ _ _ hidx]
        exact chainGet_assign_self k' value _ hm
      · simp only [hash_get, bucket, if_neg hk]
        by_cases hb : _djb_hash k' % h.capacity = _djb_hash key % h.capacity
        · rw [hb, getD_set_self _ _ _ hidx, chainGet_assign_ne key k' value _ hk]
        · rw [getD_set_ne _ _ _ _ hb]
  · rw [Bool.not_eq_true] at hm
    by_cases hv : value = 0
    · rw [hv, hash_insert_core_noop h key hm]
      by_cases hk : k' = key
      · subst hk
        simp only [if_pos rfl, hash_get]
        exact chainGet_eq_zero_of_not_mem _ _ hm
      · simp only [if_neg hk]
    · rw [hash_insert_core_new h key value hm hv]
      by_cases hk : k' = key
      · subst hk
        simp only [hash_get, bucket, if_pos rfl]
        rw [getD_set_self _ _ _ hidx]
        simp [chainGet]
      · simp only [hash_get, bucket, if_neg hk]
        by_cases hb : _djb_hash k' % h.capacity = _djb_hash key % h.capacity
        · rw [hb, getD_set_self _ _ _ hidx]
          simp only [chainGet]
          rw [if_neg (fun e => hk (e.symm))]
        · rw [getD_set_ne _ _ _ _ hb]

/-! ### The insert body preserves the invariant -/

theorem wf_hash_insert_core (h : Hash) (wf : WF h) (key : List Nat)
    (value : Nat) : WF (hash_insert_core h key value) := by
  have hidx : _djb_hash key % h.capacity < h.table.length := by
    rw [wf.len]; exact Nat.mod_lt _ wf.pos
  have hbmem : bucket h key ∈ h.table := getD_mem_of_lt h.table _ hidx
  have hnd : ((bucket h key).map Association.key).Nodup := wf.nodup _ hbmem
  by_cases hm : chainMem key (bucket h key) = true
  · by_cases hv : value = 0
    · rw [hv, hash_insert_core_remove h key hm]
      have hflat := length_flatten_set h.table (_djb_hash key % h.capacity)
        (chainRemove key (bucket h key)) hidx
      have hrl := length_chainRemove key (bucket h key) hm
      refine ⟨?_, wf.pos, ?_, ?_, ?_, ?_⟩
      · simp [List.length_set, wf.len]
      · have hc := wf.count
        simp only [assocs, bucket] at hc hflat hrl ⊢
        omega
      · intro a ha
        rcases mem_flatten_set _ _ _ a ha with hc | hc
        · exact wf.vals a (mem_assocs_of_mem_bucket_key h key a
            ((chainRemove_sublist key (bucket h key)).subset hc))
        · exact wf.vals a hc
      · intro j a ha
        by_cases hj : j = _djb_hash key % h.capacity
        · subst hj
          rw [getD_set_self _ _ _ hidx] at ha
          exact wf.placed _ a ((chainRemove_sublist key (bucket h key)).subset ha)
        · rw [getD_set_ne _ _ _ _ hj] at ha
          exact wf.placed j a ha
      · intro c hc
        rcases List.mem_or_eq_of_mem_set hc with hc' | hc'
        · exact wf.nodup c hc'
        · subst hc'
          exact hnd.sublist (List.Sublist.map _ (chainRemove_sublist key _))
    · rw [hash_insert_core_assign h key value hm hv]
      have hflat := length_flatten_set h.table (_djb_hash key % h.capacity)
        (chainAssign key value (bucket h key)) hidx
      have hal := length_chainAssign key value (bucket h key)
      refine ⟨?_, wf.pos, ?_, ?_, ?_, ?_⟩
      · simp [List.length_set, wf.len]
      · have hc := wf.count
        simp only [assocs, bucket] at hc hflat hal ⊢
        omega
      · intro a ha
        rcases mem_flatten_set _ _ _ a ha with hc | hc
        · rcases mem_chainAssign key value _ a hc with hv' | hv'
          · rw [hv']; exact hv
          · exact wf.vals a (mem_assocs_of_mem_bucket_key h key a hv')
        · exact wf.vals a hc
      · intro j a ha
        by_cases hj : j = _djb_hash key % h.capacity
        · subst hj
          rw [getD_set_self _ _ _ hidx] at ha
          have : a.key ∈ (bucket h key).map Association.key := by
            rw [← map_key_chainAssign key value (bucket h key)]
            exact List.mem_map_of_mem Association.key ha
          rcases List.mem_map.1 this with ⟨b, hb, hbk⟩
          rw [← hbk]
          exact wf.placed _ b hb
        · rw [getD_set_ne _ _ _ _ hj] at ha
          exact wf.placed j a ha
      · intro c hc
        rcases List.mem_or_eq_of_mem_set hc with hc' | hc'
        · exact wf.nodup c hc'
        · subst hc'
          rw [map_key_chainAssign]
          exact hnd
  · rw [Bool.not_eq_true] at hm
    by_cases hv : value = 0
    · rw [hv, hash_insert_core_noop h key hm]
      exact wf
    · rw [hash_insert_core_new h key value hm hv]
      have hflat := length_flatten_set h.table (_djb_hash key % h.capacity)
        ({ key := key, value := value } :: bucket h key) hidx
      refine ⟨?_, wf.pos, ?_, ?_, ?_, ?_⟩
      · simp [List.length_set, wf.len]
      · have hc := wf.count
        simp only [assocs, bucket, List.length_cons] at hc hflat ⊢
        omega
      · intro a ha
        rcases mem_flatten_set _ _ _ a ha with hc | hc
        · rcases List.mem_cons.1 hc with rfl | hc'
          · exact hv
          · exact wf.vals a (mem_assocs_of_mem_bucket_key h key a hc')
        · exact wf.vals a hc
      · intro j a ha
        by_cases hj : j = _djb_hash key % h.capacity
        · subst hj
          rw [getD_set_self _ _ _ hidx] at ha
          rcases List.mem_cons.1 ha with rfl | hc'
          · rfl
          · exact wf.placed _ a hc'
        · rw [getD_set_ne _ _ _ _ hj] at ha
          exact wf.placed j a ha
      · intro c hc
        rcases List.mem_or_eq_of_mem_set hc with hc' | hc'
        · exact wf.nodup c hc'
        · subst hc'
          rw [List.map_cons]
          refine List.nodup_cons.2 ⟨?_, hnd⟩
          intro hkmem
          rcases List.mem_map.1 hkmem with ⟨b, hb, hbk⟩
          exact ((chainMem_eq_false_iff key (bucket h key)).1 hm b hb) hbk

theorem num_elems_hash_insert_core (h : Hash) (wf : WF h) (key : List Nat)
    (value : Nat) :
    (hash_insert_core h key value).num_elems =
      if value ≠ 0 then
        (if hash_get h key ≠ 0 then h.num_elems else h.num_elems + 1)
      else
        (if hash_get h key ≠ 0 then h.num_elems - 1 else h.num_elems) := by
  have hiff := hash_get_ne_zero_iff h wf key
  by_cases hm : chainMem key (bucket h key) = true
  · have hg : hash_get h key ≠ 0 := hiff.2 hm
    by_cases hv : value = 0
    · subst hv
      rw [hash_insert_core_remove h key hm]
      simp [hg]
    · rw [hash_insert_core_assign h key value hm hv]
      simp [hg, hv]
  · rw [Bool.not_eq_true] at hm
    have hg : hash_get h key = 0 := by
      by_contra hne
      have ht := hiff.1 hne
      rw [hm] at ht
      exact Bool.false_ne_true ht
    by_cases hv : value = 0
    · subst hv
      rw [hash_insert_core_noop h key hm]
      simp [hg]
    · rw [hash_insert_core_new h key value hm hv]
      simp [hg, hv]

/-! ### Global key uniqueness from per-chain uniqueness and placement -/

theorem exists_getD_of_mem_flatten {α : Type} (L : List (List α)) (a : α)
    (ha : a ∈ L.flatten) : ∃ j, j < L.length ∧ a ∈ L.getD j [] := by
  rcases List.mem_flatten.1 ha with ⟨d, hd, had⟩
  rcases List.mem_iff_get.1 hd with ⟨⟨j, hj⟩, rfl⟩
  exact ⟨j, hj, by rw [List.getD_eq_getElem L [] hj]; exact had⟩

theorem nodup_keys_flatten (L : List (List Association))
    (hnd : ∀ c ∈ L, (c.map Association.key).Nodup)
    (hplace : ∀ i j a b, a ∈ L.getD i [] → b ∈ L.getD j [] →
      a.key = b.key → i = j) :
    ((L.flatten).map Association.key).Nodup := by
  induction L with
  | nil => simp
  | cons c rest ih =>
    rw [List.flatten_cons, List.map_append, List.nodup_append]
    refine ⟨hnd c (List.mem_cons_self c rest), ?_, ?_⟩
    · refine ih (fun d hd => hnd d (List.mem_cons_of_mem c hd)) ?_
      intro i j a b ha hb hk
      have := hplace (i + 1) (j + 1) a b (by simpa using ha) (by simpa using hb) hk
      omega
    · intro k hk1 hk2
      rcases List.mem_map.1 hk1 with ⟨a, ha, hak⟩
      rcases List.mem_map.1 hk2 with ⟨b, hb, hbk⟩
      rcases exists_getD_of_mem_flatten rest b hb with ⟨j, hj, hbj⟩
      have h0 := hplace 0 (j + 1) a b (by simpa using ha) (by simpa using hbj)
        (by rw [hak, hbk])
      exact Nat.succ_ne_zero j h0.symm

theorem nodup_keys_assocs (h : Hash) (wf : WF h) :
    ((assocs h).map Association.key).Nodup := by
  refine nodup_keys_flatten h.table wf.nodup ?_
  intro i j a b ha hb hk
  rw [← wf.placed i a ha, ← wf.placed j b hb, hk]

theorem chain_filter_le_one (c : List Association) (k : List Nat)
    (hnd : (c.map Association.key).Nodup) :
    (c.filter (fun a => decide (a.key = k))).length ≤ 1 := by
  induction c with
  | nil => simp
  | cons a rest ih =>
    simp only [List.map_cons, List.nodup_cons] at hnd
    by_cases hk : a.key = k
    · have hrest : rest.filter (fun a => decide (a.key = k)) = [] := by
        rw [List.filter_eq_nil_iff]
        intro b hb hbk
        simp only [decide_eq_true_eq] at hbk
        exact hnd.1 (by rw [hk, ← hbk]; exact List.mem_map_of_mem _ hb)
      simp [List.filter_cons, hk, hrest]
    · simp only [List.filter_cons, hk, decide_eq_true_eq, if_neg hk]
      exact ih hnd.2

/-- Looking a key up in the table is looking it up in the concatenation
of all chains: placement pins every `k`-node to `k`'s own bucket. -/
theorem hash_get_eq_chainGet_assocs (h : Hash) (wf : WF h) (k : List Nat) :
    hash_get h k = chainGet k (assocs h) := by
  have hidx : _djb_hash k % h.capacity < h.table.length := by
    rw [wf.len]; exact Nat.mod_lt _ wf.pos
  have hp : ∀ j, ∀ a ∈ h.table.getD j [], a.key = k →
      j = _djb_hash k % h.capacity := by
    intro j a ha hk
    rw [← wf.placed j a ha, hk]
  exact (chainGet_flatten_eq h.table k _ hidx hp).symm

/-! ### The re-insertion fold -/

theorem reinsert_capacity (l : List Association) (acc : Hash) :
    (reinsert l acc).capacity = acc.capacity := by
  induction l generalizing acc with
  | nil => rfl
  | cons a rest ih =>
    rw [reinsert, List.foldl_cons, ← reinsert]
    rw [ih, capacity_hash_insert_core]

theorem reinsert_append (l1 l2 : List Association) (acc : Hash) :
    reinsert (l1 ++ l2) acc = reinsert l2 (reinsert l1 acc) := by
  simp [reinsert, List.foldl_append]

theorem _hash_resize_eq_reinsert (h : Hash) :
    _hash_resize h = reinsert (assocs h) (_hash_table_init (h.capacity * 2)) := by
  rw [_hash_resize, assocs]
  generalize _hash_table_init (h.capacity * 2) = acc
  induction h.table generalizing acc with
  | nil => rfl
  | cons c rest ih =>
    rw [List.foldl_cons, List.flatten_cons, reinsert_append]
    exact ih _

theorem wf_hash_table_init (c : Nat) (hc : 0 < c) : WF (_hash_table_init c) := by
  refine ⟨by simp [_hash_table_init], hc, ?_, ?_, ?_, ?_⟩
  · simp [_hash_table_init, assocs, flatten_replicate_nil]
  · intro a ha
    rw [assocs] at ha
    simp only [_hash_table_init] at ha
    rw [flatten_replicate_nil] at ha
    simp at ha
  · intro i a ha
    simp only [_hash_table_init] at ha
    rw [getD_replicate_nil] at ha
    simp at ha
  · intro c' hc'
    simp only [_hash_table_init] at hc'
    rw [List.eq_of_mem_replicate hc']
    simp

theorem hash_get_hash_table_init (c : Nat) (k : List Nat) :
    hash_get (_hash_table_init c) k = 0 := by
  rw [hash_get, bucket]
  simp only [_hash_table_init]
  rw [getD_replicate_nil]
  rfl

/-- Folding the insert body over fresh, pairwise-distinct, non-sentinel
nodes none of which is already present: the table absorbs them all. -/
theorem reinsert_spec (l : List Association) (acc : Hash) (wf : WF acc)
    (hnd : (l.map Association.key).Nodup)
    (hvals : ∀ a ∈ l, a.value ≠ 0)
    (habs : ∀ a ∈ l, hash_get acc a.key = 0) :
    WF (reinsert l acc)
    ∧ (reinsert l acc).num_elems = acc.num_elems + l.length
    ∧ ∀ k, hash_get (reinsert l acc) k
        = if chainMem k l then chainGet k l else hash_get acc k := by
  induction l generalizing acc with
  | nil =>
    refine ⟨wf, rfl, ?_⟩
    intro k
    simp [reinsert, chainMem, chainGet]
  | cons a rest ih =>
    simp only [List.map_cons, List.nodup_cons] at hnd
    have hv : a.value ≠ 0 := hvals a (List.mem_cons_self a rest)
    have hg0 : hash_get acc a.key = 0 := habs a (List.mem_cons_self a rest)
    have hget1 := hash_get_hash_insert_core acc wf a.key
    have wf1 : WF (hash_insert_core acc a.key a.value) :=
      wf_hash_insert_core acc wf a.key a.value
    have hnum1 : (hash_insert_core acc a.key a.value).num_elems
        = acc.num_elems + 1 := by
      rw [num_elems_hash_insert_core acc wf a.key a.value]
      simp [hv, hg0]
    have hrest_keys : ∀ b ∈ rest, b.key ≠ a.key := by
      intro b hb he
      exact hnd.1 (he ▸ List.mem_map_of_mem Association.key hb)
    have habs1 : ∀ b ∈ rest, hash_get (hash_insert_core acc a.key a.value) b.key = 0 := by
      intro b hb
      rw [hget1 b.key a.value, if_neg (hrest_keys b hb)]
      exact habs b (List.mem_cons_of_mem a hb)
    have hstep : reinsert (a :: rest) acc
        = reinsert rest (hash_insert_core acc a.key a.value) := by
      rw [reinsert, List.foldl_cons, ← reinsert]
    rcases ih (hash_insert_core acc a.key a.value) wf1 hnd.2
      (fun b hb => hvals b (List.mem_cons_of_mem a hb)) habs1 with ⟨wfr, numr, getr⟩
    rw [hstep]
    refine ⟨wfr, by rw [numr, hnum1]; simp [List.length_cons]; omega, ?_⟩
    intro k
    rw [getr k]
    by_cases hmr : chainMem k rest = true
    · have hka : a.key ≠ k := by
        intro he
        rcases (chainMem_iff_exists k rest).1 hmr with ⟨b, hb, hbk⟩
        exact hrest_keys b hb (by rw [hbk, he])
      rw [if_pos hmr]
      have hma : chainMem k (a :: rest) = true := by
        simp [chainMem, hka, hmr]
      rw [if_pos hma]
      simp [chainGet, hka]
    · rw [Bool.not_eq_true] at hmr
      rw [if_neg (by simp [hmr]), hget1 k a.value]
      by_cases hka : a.key = k
      · have hma : chainMem k (a :: rest) = true := by simp [chainMem, hka]
        rw [if_pos hma]
        simp [chainGet, hka]
      · have hka' : k ≠ a.key := fun e => hka e.symm
        have hma : chainMem k (a :: rest) = false := by simp [chainMem, hka, hmr]
        rw [hma]
        simp [hka']

/-! ### What a resize does -/

theorem capacity_hash_resize (h : Hash) :
    (_hash_resize h).capacity = h.capacity * 2 := by
  rw [_hash_resize_eq_reinsert, reinsert_capacity]
  rfl

theorem resize_spec (h : Hash) (wf : WF h) :
    WF (_hash_resize h)
    ∧ (_hash_resize h).num_elems = h.num_elems
    ∧ ∀ k, hash_get (_hash_resize h) k = hash_get h k := by
  have h2 : 0 < h.capacity * 2 := by have := wf.pos; omega
  have wfi : WF (_hash_table_init (h.capacity * 2)) := wf_hash_table_init _ h2
  have hkeys : ((assocs h).map Association.key).Nodup := nodup_keys_assocs h wf
  rcases reinsert_spec (assocs h) (_hash_table_init (h.capacity * 2)) wfi hkeys
    wf.vals (fun a _ => hash_get_hash_table_init _ a.key) with ⟨wfr, numr, getr⟩
  rw [_hash_resize_eq_reinsert]
  refine ⟨wfr, ?_, ?_⟩
  · rw [numr, wf.count]
    simp [_hash_table_init]
  · intro k
    rw [getr k, hash_get_eq_chainGet_assocs h wf k]
    by_cases hm : chainMem k (assocs h) = true
    · rw [if_pos hm]
    · rw [Bool.not_eq_true] at hm
      rw [if_neg (by simp [hm]), hash_get_hash_table_init,
        chainGet_eq_zero_of_not_mem k _ hm]

/-! ### The full insert (with its resize check) -/

theorem wf_hash_insert (h : Hash) (wf : WF h) (key : List Nat)
    (value : Nat) : WF (hash_insert h key value) := by
  rw [hash_insert]
  by_cases hl : loadOver h = true
  · rw [if_pos hl]
    exact wf_hash_insert_core _ (resize_spec h wf).1 key value
  · rw [if_neg hl]
    exact wf_hash_insert_core _ wf key value

theorem hash_get_hash_insert (h : Hash) (wf : WF h) (key k' : List Nat)
    (value : Nat) :
    hash_get (hash_insert h key value) k'
      = if k' = key then value else hash_get h k' := by
  rw [hash_insert]
  by_cases hl : loadOver h = true
  · rw [if_pos hl, hash_get_hash_insert_core _ (resize_spec h wf).1,
      (resize_spec h wf).2.2 k']
  · rw [if_neg hl, hash_get_hash_insert_core _ wf]

theorem num_elems_hash_insert (h : Hash) (wf : WF h) (key : List Nat)
    (value : Nat) :
    (hash_insert h key value).num_elems =
      if value ≠ 0 then
        (if hash_get h key ≠ 0 then h.num_elems else h.num_elems + 1)
      else
        (if hash_get h key ≠ 0 then h.num_elems - 1 else h.num_elems) := by
  rw [hash_insert]
  by_cases hl : loadOver h = true
  · rw [if_pos hl, num_elems_hash_insert_core _ (resize_spec h wf).1,
      (resize_spec h wf).2.2 key, (resize_spec h wf).2.1]
  · rw [if_neg hl, num_elems_hash_insert_core _ wf]

theorem capacity_hash_insert (h : Hash) (key : List Nat) (value : Nat) :
    (hash_insert h key value).capacity
      = if loadOver h then h.capacity * 2 else h.capacity := by
  rw [hash_insert]
  by_cases hl : loadOver h = true
  · rw [if_pos hl, if_pos hl, capacity_hash_insert_core, capacity_hash_resize]
  · rw [if_neg hl, if_neg hl, capacity_hash_insert_core]

/-! ### The float rounding in the load-factor check -/

theorem floatRound_of_le (n : Nat) (hn : n ≤ 2 ^ 24) : floatRound n = n := by
  rw [floatRound, if_pos hn]

theorem floatRound_of_gt (n : Nat) (hn : 2 ^ 24 < n) :
    floatRound n =
      if 2 ^ (Nat.log 2 n - 23) < 2 * (n % 2 ^ (Nat.log 2 n - 23))
          ∨ (2 * (n % 2 ^ (Nat.log 2 n - 23)) = 2 ^ (Nat.log 2 n - 23)
              ∧ (n / 2 ^ (Nat.log 2 n - 23)) % 2 = 1) then
        (n / 2 ^ (Nat.log 2 n - 23) + 1) * 2 ^ (Nat.log 2 n - 23)
      else
        (n / 2 ^ (Nat.log 2 n - 23)) * 2 ^ (Nat.log 2 n - 23) := by
  rw [floatRound, if_neg (by omega)]

theorem floatRound_le_five_pow (n c : Nat) (hle : n ≤ 5 * 2 ^ c) :
    floatRound n ≤ 5 * 2 ^ c := by
  by_cases hn : n ≤ 2 ^ 24
  · rw [floatRound_of_le n hn]; exact hle
  · push_neg at hn
    have hc : 22 ≤ c := by
      by_contra hc'
      push_neg at hc'
      have h1 : (5 : Nat) * 2 ^ c ≤ 5 * 2 ^ 21 :=
        Nat.mul_le_mul_left 5 (Nat.pow_le_pow_right (by norm_num) (by omega))
      norm_num at h1 hn
      omega
    have hL24 : 24 ≤ Nat.log 2 n :=
      Nat.le_log_of_pow_le (by norm_num) (le_of_lt hn)
    have hnL : 2 ^ Nat.log 2 n ≤ n := Nat.pow_log_le_self 2 (by omega)
    have h53 : 5 * 2 ^ c < 2 ^ (c + 3) := by
      have he : (2 : Nat) ^ (c + 3) = 8 * 2 ^ c := by ring
      have hp : 0 < (2 : Nat) ^ c := pow_pos (by norm_num) c
      omega
    have hLc : Nat.log 2 n ≤ c + 2 := by
      have hpow : (2 : Nat) ^ Nat.log 2 n < 2 ^ (c + 3) :=
        lt_of_le_of_lt hnL (lt_of_le_of_lt hle h53)
      have := (Nat.pow_lt_pow_iff_right (by norm_num : 1 < 2)).1 hpow
      omega
    rw [floatRound_of_gt n hn]
    set e := Nat.log 2 n - 23 with he_def
    have he1 : 1 ≤ e := by omega
    have hdvd : (2 : Nat) ^ e ∣ 5 * 2 ^ c :=
      Dvd.dvd.mul_left (pow_dvd_pow 2 (by omega)) 5
    have hm : n / 2 ^ e ≤ (5 * 2 ^ c) / 2 ^ e := Nat.div_le_div_right hle
    by_cases hcase : n / 2 ^ e < (5 * 2 ^ c) / 2 ^ e
    · have hb : (n / 2 ^ e + 1) * 2 ^ e ≤ 5 * 2 ^ c := by
        calc (n / 2 ^ e + 1) * 2 ^ e
            ≤ ((5 * 2 ^ c) / 2 ^ e) * 2 ^ e := Nat.mul_le_mul_right _ (by omega)
          _ = 5 * 2 ^ c := Nat.div_mul_cancel hdvd
      split_ifs
      · exact hb
      · exact le_trans (Nat.mul_le_mul_right _ (Nat.le_succ _)) hb
    · have hmM : n / 2 ^ e = (5 * 2 ^ c) / 2 ^ e := le_antisymm hm (by omega)
      have hMT : ((5 * 2 ^ c) / 2 ^ e) * 2 ^ e = 5 * 2 ^ c :=
        Nat.div_mul_cancel hdvd
      have h2 : (n / 2 ^ e) * 2 ^ e ≤ n := Nat.div_mul_le_self n _
      have hTn : 5 * 2 ^ c ≤ n := by rw [hmM, hMT] at h2; exact h2
      have hnT : n = 5 * 2 ^ c := le_antisymm hle hTn
      have hr0 : n % 2 ^ e = 0 := by
        have hdm2 := Nat.div_add_mod (5 * 2 ^ c) (2 ^ e)
        have hcm : ((5 * 2 ^ c) / 2 ^ e) * 2 ^ e
            = 2 ^ e * ((5 * 2 ^ c) / 2 ^ e) := Nat.mul_comm _ _
        rw [hnT]
        omega
      have hpe : (2 : Nat) ≤ 2 ^ e := by
        calc (2 : Nat) = 2 ^ 1 := by norm_num
        _ ≤ 2 ^ e := Nat.pow_le_pow_right (by norm_num) he1
      rw [if_neg (by omega)]
      calc (n / 2 ^ e) * 2 ^ e ≤ n := Nat.div_mul_le_self n _
        _ ≤ 5 * 2 ^ c := hle

theorem le_of_floatRound_le_five_pow (n c : Nat)
    (hfl : floatRound n ≤ 5 * 2 ^ c) : n ≤ 5 * 2 ^ c + 2 ^ c / 2 ^ 22 := by
  by_cases hn : n ≤ 2 ^ 24
  · rw [floatRound_of_le n hn] at hfl; omega
  · push_neg at hn
    have hL24 : 24 ≤ Nat.log 2 n :=
      Nat.le_log_of_pow_le (by norm_num) (le_of_lt hn)
    have hnL : 2 ^ Nat.log 2 n ≤ n := Nat.pow_log_le_self 2 (by omega)
    rw [floatRound_of_gt n hn] at hfl
    set e := Nat.log 2 n - 23 with he_def
    have he1 : 1 ≤ e := by omega
    have hm23 : 2 ^ 23 ≤ n / 2 ^ e := by
      have h1 : 2 ^ Nat.log 2 n / 2 ^ e ≤ n / 2 ^ e := Nat.div_le_div_right hnL
      rw [Nat.pow_div (by omega) (by norm_num)] at h1
      have h2 : Nat.log 2 n - e = 23 := by omega
      rw [h2] at h1
      exact h1
    have hfl_lb : 2 ^ Nat.log 2 n ≤ (n / 2 ^ e) * 2 ^ e := by
      calc (2 : Nat) ^ Nat.log 2 n = 2 ^ 23 * 2 ^ e := by
            rw [← pow_add]
            congr 1
            omega
        _ ≤ (n / 2 ^ e) * 2 ^ e := Nat.mul_le_mul_right _ hm23
    have h24L : (2 : Nat) ^ 24 ≤ 2 ^ Nat.log 2 n :=
      Nat.pow_le_pow_right (by norm_num) hL24
    have hc : 22 ≤ c := by
      by_contra hc'
      push_neg at hc'
      have h1 : (5 : Nat) * 2 ^ c ≤ 5 * 2 ^ 21 :=
        Nat.mul_le_mul_left 5 (Nat.pow_le_pow_right (by norm_num) (by omega))
      have h2 : (2 : Nat) ^ 24 ≤ (n / 2 ^ e) * 2 ^ e := le_trans h24L hfl_lb
      have h3 : (n / 2 ^ e) * 2 ^ e ≤ 5 * 2 ^ c := by
        rcases Classical.em (2 ^ e < 2 * (n % 2 ^ e)
            ∨ (2 * (n % 2 ^ e) = 2 ^ e ∧ (n / 2 ^ e) % 2 = 1)) with hco | hco
        · rw [if_pos hco] at hfl
          exact le_trans (Nat.mul_le_mul_right _ (Nat.le_succ _)) hfl
        · rw [if_neg hco] at hfl
          exact hfl
      norm_num at h1 h2
      omega
    have hLc : Nat.log 2 n ≤ c + 2 := by
      have h53 : 5 * 2 ^ c < 2 ^ (c + 3) := by
        have he : (2 : Nat) ^ (c + 3) = 8 * 2 ^ c := by ring
        have hp : 0 < (2 : Nat) ^ c := pow_pos (by norm_num) c
        omega
      have h3 : (n / 2 ^ e) * 2 ^ e ≤ 5 * 2 ^ c := by
        rcases Classical.em (2 ^ e < 2 * (n % 2 ^ e)
            ∨ (2 * (n % 2 ^ e) = 2 ^ e ∧ (n / 2 ^ e) % 2 = 1)) with hco | hco
        · rw [if_pos hco] at hfl
          exact le_trans (Nat.mul_le_mul_right _ (Nat.le_succ _)) hfl
        · rw [if_neg hco] at hfl
          exact hfl
      have hpow : (2 : Nat) ^ Nat.log 2 n < 2 ^ (c + 3) :=
        lt_of_le_of_lt (le_trans hfl_lb h3) h53
      have := (Nat.pow_lt_pow_iff_right (by norm_num : 1 < 2)).1 hpow
      omega
    have hdiv : (2 : Nat) ^ c / 2 ^ 22 = 2 ^ (c - 22) :=
      Nat.pow_div (by omega) (by norm_num)
    have hdm := Nat.div_add_mod n (2 ^ e)
    have hrlt : n % 2 ^ e < 2 ^ e := Nat.mod_lt n (pow_pos (by norm_num) e)
    rw [hdiv]
    rcases Classical.em (2 ^ e < 2 * (n % 2 ^ e)
        ∨ (2 * (n % 2 ^ e) = 2 ^ e ∧ (n / 2 ^ e) % 2 = 1)) with hco | hco
    · rw [if_pos hco] at hfl
      have hexp : (n / 2 ^ e + 1) * 2 ^ e = (n / 2 ^ e) * 2 ^ e + 2 ^ e := by ring
      have hcm : (n / 2 ^ e) * 2 ^ e = 2 ^ e * (n / 2 ^ e) := Nat.mul_comm _ _
      omega
    · rw [if_neg hco] at hfl
      push_neg at hco
      have hr : n % 2 ^ e ≤ 2 ^ (e - 1) := by
        have h2e : (2 : Nat) ^ e = 2 * 2 ^ (e - 1) := by
          rw [← pow_succ']
          congr 1
          omega
        omega
      have hee : (2 : Nat) ^ (e - 1) ≤ 2 ^ (c - 22) :=
        Nat.pow_le_pow_right (by norm_num) (by omega)
      have hcm : (n / 2 ^ e) * 2 ^ e = 2 ^ e * (n / 2 ^ e) := Nat.mul_comm _ _
      omega

theorem loadOver_eq_false_of_le (h : Hash) (k : Nat)
    (hcap : h.capacity = 2 ^ k) (hle : h.num_elems ≤ 5 * h.capacity) :
    loadOver h = false := by
  rw [loadOver]
  simp only [decide_eq_false_iff_not, Nat.not_lt]
  rw [hcap] at hle ⊢
  exact floatRound_le_five_pow _ k hle

theorem le_of_loadOver_eq_false (h : Hash) (k : Nat)
    (hcap : h.capacity = 2 ^ k) (hl : loadOver h = false) :
    h.num_elems ≤ 5 * h.capacity + h.capacity / 2 ^ 22 := by
  rw [loadOver] at hl
  simp only [decide_eq_false_iff_not, Nat.not_lt] at hl
  rw [hcap] at hl ⊢
  exact le_of_floatRound_le_five_pow _ k hl

/-! ### Every reachable table is well-formed and within the load bound -/

theorem reachable_wf_loadOK (h : Hash) (hr : Reachable h) :
    WF h ∧ LoadOK h ∧ ∃ k, h.capacity = 2 ^ k := by
  induction hr with
  | create =>
    refine ⟨wf_hash_table_init 16 (by norm_num), ?_,
      ⟨4, by norm_num [hash_create, _hash_table_init]⟩⟩
    rw [LoadOK]
    norm_num [hash_create, _hash_table_init]
  | insert h key value _ ih =>
    rcases ih with ⟨wf, hload, k, hcapk⟩
    have hcap := capacity_hash_insert h key value
    refine ⟨wf_hash_insert h wf key value, ?_, ?_⟩
    · have hle : (hash_insert h key value).num_elems ≤ h.num_elems + 1 := by
        rw [num_elems_hash_insert h wf key value]
        split_ifs <;> omega
      have hpos := wf.pos
      rw [LoadOK] at hload ⊢
      by_cases hl : loadOver h = true
      · rw [hl, if_pos rfl] at hcap
        have hd : h.capacity / 2 ^ 22 ≤ (h.capacity * 2) / 2 ^ 22 :=
          Nat.div_le_div_right (by omega)
        omega
      · rw [if_neg hl] at hcap
        rw [Bool.not_eq_true] at hl
        have hb := le_of_loadOver_eq_false h k hcapk hl
        omega
    · by_cases hl : loadOver h = true
      · rw [hl, if_pos rfl] at hcap
        exact ⟨k + 1, by rw [hcap, hcapk]; ring⟩
      · rw [if_neg hl] at hcap
        exact ⟨k, by rw [hcap, hcapk]⟩

theorem reachable_wf (h : Hash) (hr : Reachable h) : WF h :=
  (reachable_wf_loadOK h hr).1

/-! ### Folding full inserts -/

theorem reachable_insertAll (l : List (List Nat × Nat)) (h : Hash)
    (hr : Reachable h) : Reachable (insertAll l h) := by
  induction l generalizing h with
  | nil => exact hr
  | cons p rest ih =>
    rw [insertAll, List.foldl_cons, ← insertAll]
    exact ih _ (Reachable.insert h p.1 p.2 hr)

theorem insertAll_spec (l : List (List Nat × Nat)) (acc : Hash) (wf : WF acc)
    (hnd : (l.map Prod.fst).Nodup)
    (hvals : ∀ p ∈ l, p.2 ≠ 0)
    (habs : ∀ p ∈ l, hash_get acc p.1 = 0) :
    WF (insertAll l acc)
    ∧ (insertAll l acc).num_elems = acc.num_elems + l.length
    ∧ (∀ p ∈ l, hash_get (insertAll l acc) p.1 = p.2)
    ∧ (∀ k, k ∉ l.map Prod.fst → hash_get (insertAll l acc) k = hash_get acc k) := by
  induction l generalizing acc with
  | nil => exact ⟨wf, rfl, by simp, fun k _ => rfl⟩
  | cons p rest ih =>
    simp only [List.map_cons, List.nodup_cons] at hnd
    have hv : p.2 ≠ 0 := hvals p (List.mem_cons_self p rest)
    have hg0 : hash_get acc p.1 = 0 := habs p (List.mem_cons_self p rest)
    have wf1 : WF (hash_insert acc p.1 p.2) := wf_hash_insert acc wf p.1 p.2
    have hget1 := fun k' => hash_get_hash_insert acc wf p.1 k' p.2
    have hnum1 : (hash_insert acc p.1 p.2).num_elems = acc.num_elems + 1 := by
      rw [num_elems_hash_insert acc wf p.1 p.2]
      simp [hv, hg0]
    have hrest_keys : ∀ q ∈ rest, q.1 ≠ p.1 := by
      intro q hq he
      exact hnd.1 (he ▸ List.mem_map_of_mem Prod.fst hq)
    have habs1 : ∀ q ∈ rest, hash_get (hash_insert acc p.1 p.2) q.1 = 0 := by
      intro q hq
      rw [hget1 q.1, if_neg (hrest_keys q hq)]
      exact habs q (List.mem_cons_of_mem p hq)
    have hstep : insertAll (p :: rest) acc
        = insertAll rest (hash_insert acc p.1 p.2) := by
      rw [insertAll, List.foldl_cons, ← insertAll]
    rcases ih (hash_insert acc p.1 p.2) wf1 hnd.2
      (fun q hq => hvals q (List.mem_cons_of_mem p hq)) habs1
      with ⟨wfr, numr, getr, framer⟩
    rw [hstep]
    refine ⟨wfr, by rw [numr, hnum1]; simp [List.length_cons]; omega, ?_, ?_⟩
    · intro q hq
      rcases List.mem_cons.1 hq with rfl | hq'
      · rw [framer q.1 (fun hmem => hnd.1 hmem), hget1 q.1, if_pos rfl]
      · exact getr q hq'
    · intro k hk
      simp only [List.map_cons, List.mem_cons, not_or] at hk
      rw [framer k hk.2, hget1 k, if_neg hk.1]

/-! ### The resize loop never re-triggers the resize check -/

theorem reinsert_num_le (l : List Association) (acc : Hash) :
    (reinsert l acc).num_elems ≤ acc.num_elems + l.length := by
  induction l generalizing acc with
  | nil => simp [reinsert]
  | cons a rest ih =>
    rw [reinsert, List.foldl_cons, ← reinsert]
    have h1 := num_elems_hash_insert_core_le acc a.key a.value
    have h2 := ih (hash_insert_core acc a.key a.value)
    simp only [List.length_cons]
    omega

theorem reinsertFull_eq_reinsert (l : List Association) (acc : Hash)
    (hsafe : ∀ l1 l2, l = l1 ++ l2 → loadOver (reinsert l1 acc) = false) :
    reinsertFull l acc = reinsert l acc := by
  induction l generalizing acc with
  | nil => rfl
  | cons a rest ih =>
    have h0 : loadOver acc = false := hsafe [] (a :: rest) rfl
    have hstep : hash_insert acc a.key a.value
        = hash_insert_core acc a.key a.value := by
      rw [hash_insert, if_neg (by simp [h0])]
    rw [reinsertFull, List.foldl_cons, ← reinsertFull, hstep,
      reinsert, List.foldl_cons, ← reinsert]
    refine ih _ ?_
    intro l1 l2 hl
    have := hsafe (a :: l1) l2 (by rw [hl]; rfl)
    rw [reinsert, List.foldl_cons, ← reinsert] at this
    exact this

/-! ### Concrete-key helpers and small consequences -/

theorem keyOf_inj (i j : Nat) (hi : i < 1000) (hj : j < 1000)
    (he : keyOf i = keyOf j) : i = j := by
  simp only [keyOf, List.cons.injEq, and_true] at he
  omega

theorem nodup_fst_pairsUpTo (n : Nat) (hn : n ≤ 1000) :
    ((pairsUpTo n).map Prod.fst).Nodup := by
  rw [pairsUpTo, List.map_map]
  have he : (Prod.fst ∘ fun i => (keyOf i, i + 1)) = keyOf := rfl
  rw [he]
  exact (List.nodup_range n).map_on (fun x hx y hy hxy =>
    keyOf_inj x y (Nat.lt_of_lt_of_le (List.mem_range.1 hx) hn)
      (Nat.lt_of_lt_of_le (List.mem_range.1 hy) hn) hxy)

theorem snd_pairsUpTo_ne_zero (n : Nat) : ∀ p ∈ pairsUpTo n, p.2 ≠ 0 := by
  intro p hp
  rw [pairsUpTo] at hp
  rcases List.mem_map.1 hp with ⟨i, _, rfl⟩
  simp

theorem load_factor_le_of_loadOK (h : Hash) (wf : WF h) (hl : LoadOK h) :
    hash_load_factor h ≤ 5 + 1 / 2 ^ 22 + 1 / (h.capacity : ℚ) := by
  have hpos : (0 : ℚ) < (h.capacity : ℚ) := by exact_mod_cast wf.pos
  rw [hash_load_factor, div_le_iff₀ hpos]
  have hexp : (5 + 1 / 2 ^ 22 + 1 / (h.capacity : ℚ)) * (h.capacity : ℚ)
      = 5 * (h.capacity : ℚ) + (h.capacity : ℚ) / 2 ^ 22 + 1 := by
    field_simp
    ring
  rw [hexp]
  rw [LoadOK] at hl
  have h1 : (h.num_elems : ℚ)
      ≤ 5 * (h.capacity : ℚ) + ((h.capacity / 2 ^ 22 : ℕ) : ℚ) + 1 := by
    exact_mod_cast hl
  have h2 : ((h.capacity / 2 ^ 22 : ℕ) : ℚ)
      ≤ (h.capacity : ℚ) / (((2 : ℕ) ^ 22 : ℕ) : ℚ) := Nat.cast_div_le
  push_cast at h2
  linarith

theorem hash_get_eq_zero_of_absent (t : Hash) (k : List Nat)
    (habs : ∀ a ∈ assocs t, a.key ≠ k) : hash_get t k = 0 := by
  rw [hash_get]
  exact chainGet_eq_zero_of_not_mem k _ ((chainMem_eq_false_iff k _).2
    (fun a ha => habs a (mem_assocs_of_mem_bucket_key t k a ha)))

theorem num_pos_of_get_ne_zero (h : Hash) (wf : WF h) (k : List Nat)
    (hg : hash_get h k ≠ 0) : 1 ≤ h.num_elems := by
  have hm := (hash_get_ne_zero_iff h wf k).1 hg
  rcases (chainMem_iff_exists k _).1 hm with ⟨a, ha, _⟩
  have hmem : a ∈ assocs h := mem_assocs_of_mem_bucket_key h k a ha
  rw [wf.count]
  exact List.length_pos.2 (List.ne_nil_of_mem hmem)

/-! ### The claims -/

set_option maxRecDepth 100000

/-- C1, as written, fails on the code: `t80` is reachable (80 distinct
inserts from a fresh table), the 81st insert sees load factor exactly
5.0 — not *over* the threshold — so no resize happens, and the completed
insert leaves 81 elements in 16 buckets: load factor 5.0625 > 5.0. -/
theorem C1_counterexample :
    Reachable t80 ∧ t81 = hash_insert t80 (keyOf 80) 81
      ∧ 5 < hash_load_factor t81 := by
  refine ⟨reachable_insertAll (pairsUpTo 80) hash_create Reachable.create, rfl, ?_⟩
  have h1 : t81.num_elems = 81 := by decide
  have h2 : t81.capacity = 16 := by decide
  rw [hash_load_factor, h1, h2]
  norm_num

/-- C1 (amended): after any insert on a reachable table,
`num_elems ≤ 5 * capacity + capacity / 2^22 + 1` — equivalently the load
factor is at most `5 + 1/2^22 + 1/capacity`.  Two effects keep it from
being `5.0` exactly: the pre-insert check (`> 5`, strict) lets one
element through past the threshold, and the check converts `num_elems`
to `float`, which rounds above `2^24`, so at capacity `2^22` and beyond
up to `capacity/2^22` further elements can slip under the check before
it fires. -/
theorem C1_load_factor_after_insert (h : Hash) (k : List Nat) (v : Nat)
    (hr : Reachable h) :
    (hash_insert h k v).num_elems
      ≤ 5 * (hash_insert h k v).capacity + (hash_insert h k v).capacity / 2 ^ 22 + 1
    ∧ hash_load_factor (hash_insert h k v)
      ≤ 5 + 1 / 2 ^ 22 + 1 / ((hash_insert h k v).capacity : ℚ) := by
  rcases reachable_wf_loadOK (hash_insert h k v) (Reachable.insert h k v hr)
    with ⟨wf, hl, _⟩
  exact ⟨hl, load_factor_le_of_loadOK _ wf hl⟩

theorem C1_witness :
    (hash_insert hash_create (keyOf 0) 1).num_elems
      ≤ 5 * (hash_insert hash_create (keyOf 0) 1).capacity
        + (hash_insert hash_create (keyOf 0) 1).capacity / 2 ^ 22 + 1
    ∧ hash_load_factor (hash_insert hash_create (keyOf 0) 1)
      ≤ 5 + 1 / 2 ^ 22 + 1 / ((hash_insert hash_create (keyOf 0) 1).capacity : ℚ) :=
  C1_load_factor_after_insert hash_create (keyOf 0) 1 Reachable.create

/-- C2, as written, fails on the code: the resize check runs before the
value argument is inspected, so an upsert with the absent sentinel (a
removal / delete-miss) on the reachable table `t81` (load factor over 5)
does resize, doubling the capacity from 16 to 32. -/
theorem C2_counterexample :
    Reachable t81 ∧ t81.capacity = 16
      ∧ (hash_insert t81 (keyOf 200) 0).capacity = 32 := by
  refine ⟨Reachable.insert t80 (keyOf 80) 81
    (reachable_insertAll (pairsUpTo 80) hash_create Reachable.create), ?_, ?_⟩
  · decide
  · decide

/-- C2 (amended): lookups cannot change the table (the embedding of
`hash_get` reads the state and returns only a value), and an upsert with
the absent sentinel leaves the capacity unchanged *provided* the load
factor is at or below the threshold when it is called; only a table
already over the threshold gets resized by a removal. -/
theorem C2_no_resize_at_or_below_threshold (h : Hash) (k : List Nat)
    (hr : Reachable h) (hload : h.num_elems ≤ 5 * h.capacity) :
    (hash_insert h k 0).capacity = h.capacity := by
  rcases reachable_wf_loadOK h hr with ⟨_, _, kc, hcapk⟩
  have hl : loadOver h = false := loadOver_eq_false_of_le h kc hcapk hload
  rw [capacity_hash_insert, if_neg (by simp [hl])]

theorem C2_witness :
    (hash_insert hash_create (keyOf 0) 0).capacity = hash_create.capacity :=
  C2_no_resize_at_or_below_threshold hash_create (keyOf 0) Reachable.create
    (by decide)

/-- C3: inserting any list of distinct keys with non-absent values into a
fresh table (resizes included, whenever the fold crosses the threshold)
leaves every key retrievable with its value and `num_elems` equal to the
number of keys; and a rehash re-homes every node, preserving every
lookup and the element count. -/
theorem C3_growth_preserves_data (pairs : List (List Nat × Nat))
    (hnd : (pairs.map Prod.fst).Nodup)
    (hvals : ∀ p ∈ pairs, p.2 ≠ 0) :
    (insertAll pairs hash_create).num_elems = pairs.length
    ∧ (∀ p ∈ pairs, hash_get (insertAll pairs hash_create) p.1 = p.2)
    ∧ ∀ h : Hash, WF h →
        (_hash_resize h).num_elems = h.num_elems
          ∧ ∀ k, hash_get (_hash_resize h) k = hash_get h k := by
  have wfc : WF hash_create := wf_hash_table_init 16 (by norm_num)
  rcases insertAll_spec pairs hash_create wfc hnd hvals
    (fun p _ => hash_get_hash_table_init 16 p.1) with ⟨_, hnum, hget, _⟩
  refine ⟨by rw [hnum]; simp [hash_create, _hash_table_init], hget, ?_⟩
  intro h wf
  exact ⟨(resize_spec h wf).2.1, (resize_spec h wf).2.2⟩

theorem C3_witness :
    (insertAll (pairsUpTo 200) hash_create).num_elems = (pairsUpTo 200).length
    ∧ (∀ p ∈ pairsUpTo 200,
        hash_get (insertAll (pairsUpTo 200) hash_create) p.1 = p.2)
    ∧ ∀ h : Hash, WF h →
        (_hash_resize h).num_elems = h.num_elems
          ∧ ∀ k, hash_get (_hash_resize h) k = hash_get h k :=
  C3_growth_preserves_data (pairsUpTo 200)
    (nodup_fst_pairsUpTo 200 (by norm_num)) (snd_pairsUpTo_ne_zero 200)

/-- C4: round-trip — on any reachable table, upserting a non-absent value
and looking the key up returns that value. -/
theorem C4_round_trip (t : Hash) (k : List Nat) (v : Nat)
    (hr : Reachable t) (_hv : v ≠ 0) :
    hash_get (hash_insert t k v) k = v := by
  rw [hash_get_hash_insert t (reachable_wf t hr) k k v, if_pos rfl]

theorem C4_witness :
    hash_get (hash_insert hash_create (keyOf 0) 1) (keyOf 0) = 1 :=
  C4_round_trip hash_create (keyOf 0) 1 Reachable.create (by norm_num)

/-- C5: overwrite — upserting `v1` then `v2` (both non-absent) for the
same key makes lookup return `v2` and leaves `num_elems` unchanged by
the second upsert. -/
theorem C5_overwrite (t : Hash) (k : List Nat) (v1 v2 : Nat)
    (hr : Reachable t) (h1 : v1 ≠ 0) (h2 : v2 ≠ 0) :
    hash_get (hash_insert (hash_insert t k v1) k v2) k = v2
    ∧ (hash_insert (hash_insert t k v1) k v2).num_elems
        = (hash_insert t k v1).num_elems := by
  have wf := reachable_wf t hr
  have wf1 := wf_hash_insert t wf k v1
  have hval : hash_get (hash_insert t k v1) k = v1 := by
    rw [hash_get_hash_insert t wf k k v1, if_pos rfl]
  constructor
  · rw [hash_get_hash_insert _ wf1 k k v2, if_pos rfl]
  · rw [num_elems_hash_insert _ wf1 k v2, hval]
    simp [h1, h2]

theorem C5_witness :
    hash_get (hash_insert (hash_insert hash_create (keyOf 0) 1) (keyOf 0) 2)
        (keyOf 0) = 2
    ∧ (hash_insert (hash_insert hash_create (keyOf 0) 1) (keyOf 0) 2).num_elems
        = (hash_insert hash_create (keyOf 0) 1).num_elems :=
  C5_overwrite hash_create (keyOf 0) 1 2 Reachable.create
    (by norm_num) (by norm_num)

/-- C6: delete — upserting the absent sentinel for a key that is present
makes lookup return the sentinel and decrements `num_elems` by exactly
one. -/
theorem C6_delete (t : Hash) (k : List Nat) (hr : Reachable t)
    (hpresent : hash_get t k ≠ 0) :
    hash_get (hash_insert t k 0) k = 0
    ∧ (hash_insert t k 0).num_elems + 1 = t.num_elems := by
  have wf := reachable_wf t hr
  have hpos := num_pos_of_get_ne_zero t wf k hpresent
  constructor
  · rw [hash_get_hash_insert t wf k k 0, if_pos rfl]
  · rw [num_elems_hash_insert t wf k 0]
    simp [hpresent]
    omega

theorem C6_witness :
    hash_get (hash_insert (hash_insert hash_create (keyOf 0) 1) (keyOf 0) 0)
        (keyOf 0) = 0
    ∧ (hash_insert (hash_insert hash_create (keyOf 0) 1) (keyOf 0) 0).num_elems
        + 1 = (hash_insert hash_create (keyOf 0) 1).num_elems :=
  C6_delete (hash_insert hash_create (keyOf 0) 1) (keyOf 0)
    (Reachable.insert hash_create (keyOf 0) 1 Reachable.create) (by decide)

/-- C7: delete-miss is a no-op — upserting the absent sentinel for a key
with no node in the table leaves `num_elems` and every lookup unchanged. -/
theorem C7_delete_miss (t : Hash) (k : List Nat) (hr : Reachable t)
    (habs : ∀ a ∈ assocs t, a.key ≠ k) :
    (hash_insert t k 0).num_elems = t.num_elems
    ∧ ∀ k', hash_get (hash_insert t k 0) k' = hash_get t k' := by
  have wf := reachable_wf t hr
  have hg : hash_get t k = 0 := hash_get_eq_zero_of_absent t k habs
  constructor
  · rw [num_elems_hash_insert t wf k 0]
    simp [hg]
  · intro k'
    rw [hash_get_hash_insert t wf k k' 0]
    by_cases hk : k' = k
    · rw [if_pos hk, hk, hg]
    · rw [if_neg hk]

theorem C7_witness :
    (hash_insert hash_create (keyOf 0) 0).num_elems = hash_create.num_elems
    ∧ ∀ k', hash_get (hash_insert hash_create (keyOf 0) 0) k'
        = hash_get hash_create k' :=
  C7_delete_miss hash_create (keyOf 0) Reachable.create
    (by intro a ha
        simp [assocs, hash_create, _hash_table_init, flatten_replicate_nil] at ha)

/-- C8: a missed lookup is not an error — with no node for the key
anywhere in the table, `hash_get` returns the `NULL` sentinel.  The
embedding of `hash_get` consumes the table and returns only a value, so
it cannot mutate buckets, chains, capacity or count. -/
theorem C8_lookup_miss (t : Hash) (k : List Nat) (_hr : Reachable t)
    (habs : ∀ a ∈ assocs t, a.key ≠ k) : hash_get t k = 0 :=
  hash_get_eq_zero_of_absent t k habs

theorem C8_witness : hash_get hash_create (keyOf 1) = 0 :=
  C8_lookup_miss hash_create (keyOf 1) Reachable.create
    (by intro a ha
        simp [assocs, hash_create, _hash_table_init, flatten_replicate_nil] at ha)

/-- C9: key uniqueness — in every reachable table the keys of all nodes
across all bucket chains are pairwise distinct: at most one node per
key. -/
theorem C9_key_uniqueness (h : Hash) (hr : Reachable h) :
    ((assocs h).map Association.key).Nodup
    ∧ ∀ k, ((assocs h).filter (fun a => decide (a.key = k))).length ≤ 1 := by
  have hn := nodup_keys_assocs h (reachable_wf h hr)
  exact ⟨hn, fun k => chain_filter_le_one (assocs h) k hn⟩

theorem C9_witness :
    ((assocs hash_create).map Association.key).Nodup
    ∧ ∀ k, ((assocs hash_create).filter (fun a => decide (a.key = k))).length ≤ 1 :=
  C9_key_uniqueness hash_create Reachable.create

/-- C10: the mutual recursion between insert and resize never nests — on
any reachable table, every intermediate state of the re-insertion loop
stays at or below the load threshold (the check `loadOver` is false, so
`hash_insert` would never call `_hash_resize` again), re-inserting
through the full `hash_insert` equals the straight-line rehash, and the
resize ends with capacity exactly doubled. -/
theorem C10_resize_never_reenters (h : Hash) (hr : Reachable h) :
    (∀ l1 l2, assocs h = l1 ++ l2 →
      loadOver (reinsert l1 (_hash_table_init (h.capacity * 2))) = false)
    ∧ reinsertFull (assocs h) (_hash_table_init (h.capacity * 2)) = _hash_resize h
    ∧ (_hash_resize h).capacity = h.capacity * 2 := by
  rcases reachable_wf_loadOK h hr with ⟨wf, hload, kc, hcapk⟩
  have hsafe : ∀ l1 l2, assocs h = l1 ++ l2 →
      loadOver (reinsert l1 (_hash_table_init (h.capacity * 2))) = false := by
    intro l1 l2 hl
    have hcap : (reinsert l1 (_hash_table_init (h.capacity * 2))).capacity
        = h.capacity * 2 := by
      rw [reinsert_capacity]; rfl
    have hnum := reinsert_num_le l1 (_hash_table_init (h.capacity * 2))
    have hinit : (_hash_table_init (h.capacity * 2)).num_elems = 0 := rfl
    have hlen : l1.length ≤ (assocs h).length := by
      rw [hl, List.length_append]; omega
    have hcount : (assocs h).length = h.num_elems := wf.count.symm
    have hpos := wf.pos
    apply loadOver_eq_false_of_le _ (kc + 1)
    · rw [hcap, hcapk]; ring
    · rw [hcap]
      have hd : h.capacity / 2 ^ 22 ≤ h.capacity := Nat.div_le_self _ _
      rw [LoadOK] at hload
      omega
  refine ⟨hsafe, ?_, capacity_hash_resize h⟩
  rw [_hash_resize_eq_reinsert]
  exact reinsertFull_eq_reinsert (assocs h) (_hash_table_init (h.capacity * 2)) hsafe

theorem C10_witness :
    (∀ l1 l2, assocs hash_create = l1 ++ l2 →
      loadOver (reinsert l1 (_hash_table_init (hash_create.capacity * 2))) = false)
    ∧ reinsertFull (assocs hash_create)
        (_hash_table_init (hash_create.capacity * 2)) = _hash_resize hash_create
    ∧ (_hash_resize hash_create).capacity = hash_create.capacity * 2 :=
  C10_resize_never_reenters hash_create Reachable.create
